import Mathlib

/-!
Verification of the prometheus client core: the descriptor, registry,
metric-vector and histogram subsystems.

The repository ships only the package documentation (`doc.go`); all core code
(descriptor, registry, metric vector, histogram, counter, untyped metric) is
absent from the sources.  Every definition below is therefore modelled from the
specification's own description of those components; each doc comment records
what is modelled.  Numeric sample values are embedded as rationals (`ℚ`),
hashes as computable functions on the hashed data.
-/

namespace Prom

/-- Label name/value pairs, e.g. a descriptor's constant labels. -/
abbrev LabelPairs := List (String × String)

/-- Modelled from the spec: a Descriptor is immutable metadata identifying a
metric family: fully-qualified name, help text, ordered variable label names
and constant labels (§3 "Descriptor"). -/
structure Desc where
  fqName : String
  help : String
  variableLabelNames : List String
  constLabels : LabelPairs
deriving DecidableEq, Repr

/-- Modelled from the spec: `id` is a hash over `(fqName, constLabels)`
identifying a metric family instance for collision detection.  The hash is
embedded as the hashed data itself (a perfect hash). -/
def Desc.idOf (d : Desc) : String × LabelPairs :=
  (d.fqName, d.constLabels)

/-- Lexicographic less-or-equal on lists of naturals (used to sort strings by
their character codes; fully computable by the kernel). -/
def lexLeN : List Nat → List Nat → Bool
  | [], _ => true
  | _ :: _, [] => false
  | a :: as, b :: bs =>
    if a < b then true else if a = b then lexLeN as bs else false

/-- A string's character codes, the sort key for label names. -/
def strKey (s : String) : List Nat := s.data.map Char.toNat

/-- Lexicographic (byte-wise) order on strings. -/
def strLe (a b : String) : Prop := lexLeN (strKey a) (strKey b) = true

instance : DecidableRel strLe := fun a b => by
  unfold strLe; infer_instance

/-- Modelled from the spec: `dimHash` is a hash over the full sorted set of
label names (variable ∪ const), identifying the shape a family must present.
Embedded as the sorted, deduplicated list of label names itself. -/
def Desc.dimHashOf (d : Desc) : List String :=
  List.insertionSort strLe (d.variableLabelNames ++ d.constLabels.map Prod.fst).dedup

/-- A single collected sample: family name, ordered label values,
current numeric value. -/
structure Sample where
  name : String
  labelValues : List String
  value : ℚ
deriving DecidableEq, Repr

/-- Modelled from the spec: the outcome of one collector's `Collect` call —
either a list of metric samples, or a failure (a panic or error raised inside
the `Collect` implementation, §4.3 / §7). -/
inductive CollectOutcome where
  | ok (samples : List Sample)
  | failed (msg : String)
deriving DecidableEq, Repr

/-- Modelled from the spec: a Collector has an identity (`cid`, standing for
the instance pointer used for the by-identity `AlreadyRegisteredError` check),
a stable `Describe` result (`descs`) and a `Collect` behaviour (`outcome`). -/
structure Collector where
  cid : Nat
  descs : List Desc
  outcome : CollectOutcome
deriving DecidableEq, Repr

/-- Entry of the registry's descriptor-consistency table:
descriptor id ↦ (dimHash, help) last seen for that id (§3 "Registry"). -/
abbrev DescTable := List ((String × LabelPairs) × (List String × String))

/-- Lookup of a descriptor id in the consistency table. -/
def lookupTable (t : DescTable) (k : String × LabelPairs) :
    Option (List String × String) :=
  (t.find? (fun e => e.1 == k)).map Prod.snd

/-- Modelled from the spec: a Registry owns the set of registered Collectors
and the derived id ↦ (dimHash, help) table used for cross-collector
consistency checks (§3 "Registry"). -/
structure Registry where
  collectors : List Collector
  table : DescTable
deriving DecidableEq, Repr

/-- The empty registry. -/
def Registry.empty : Registry := ⟨[], []⟩

/-- Modelled from the spec: the registration error taxonomy (§7). -/
inductive RegError where
  | AlreadyRegisteredError
  | InconsistentLabelDimensionError
  | InconsistentHelpError
deriving DecidableEq, Repr

/-- Modelled from the spec: the per-descriptor consistency check of
`Register` (§4.3): same `id` but different `dimHash` fails with
`InconsistentLabelDimensionError`; same `id`, same `dimHash`, different
`help` fails with `InconsistentHelpError`.  Descriptors are checked in
order; the first violation is reported. -/
def checkDescs (t : DescTable) : List Desc → Option RegError
  | [] => none
  | d :: ds =>
    match lookupTable t d.idOf with
    | none => checkDescs t ds
    | some (dh, hp) =>
      if dh ≠ d.dimHashOf then some .InconsistentLabelDimensionError
      else if hp ≠ d.help then some .InconsistentHelpError
      else checkDescs t ds

/-- Record each descriptor's id ↦ (dimHash, help) in the table, keeping
existing entries (an id already present stays as-is: the checks have already
established consistency). -/
def addDescs (t : DescTable) : List Desc → DescTable
  | [] => t
  | d :: ds =>
    if (lookupTable t d.idOf).isSome then addDescs t ds
    else addDescs (t ++ [(d.idOf, (d.dimHashOf, d.help))]) ds

/-- Modelled from the spec: `Register(collector)` (§4.3).  Checks every
described descriptor against the id table, then the collector's identity
against the registered set; on any error the registry is returned unchanged
together with the error; on success the collector is recorded and the table
updated. -/
def Registry.register (r : Registry) (c : Collector) :
    Registry × Option RegError :=
  match checkDescs r.table c.descs with
  | some e => (r, some e)
  | none =>
    if r.collectors.any (fun c2 => c2.cid == c.cid) then
      (r, some .AlreadyRegisteredError)
    else
      (⟨r.collectors ++ [c], addDescs r.table c.descs⟩, none)

/-- Some described descriptor collides with an existing registration of the
same id but a different dimHash. -/
def dimConflict (r : Registry) (c : Collector) : Prop :=
  ∃ d ∈ c.descs, ∃ p, lookupTable r.table d.idOf = some p ∧ p.1 ≠ d.dimHashOf

/-- Some described descriptor matches an existing registration's id and
dimHash but carries a different help string. -/
def helpConflict (r : Registry) (c : Collector) : Prop :=
  ∃ d ∈ c.descs, ∃ p, lookupTable r.table d.idOf = some p ∧
    p.1 = d.dimHashOf ∧ p.2 ≠ d.help

/-- The exact same collector instance (by identity) is already registered. -/
def alreadyRegistered (r : Registry) (c : Collector) : Prop :=
  ∃ c2 ∈ r.collectors, c2.cid = c.cid

instance (r : Registry) (c : Collector) : Decidable (dimConflict r c) := by
  unfold dimConflict; infer_instance

instance (r : Registry) (c : Collector) : Decidable (helpConflict r c) := by
  unfold helpConflict; infer_instance

instance (r : Registry) (c : Collector) : Decidable (alreadyRegistered r c) := by
  unfold alreadyRegistered; infer_instance

lemma checkDescs_eq_none_iff (t : DescTable) (ds : List Desc) :
    checkDescs t ds = none ↔
      ∀ d ∈ ds, ∀ p, lookupTable t d.idOf = some p →
        p.1 = d.dimHashOf ∧ p.2 = d.help := by
  induction ds with
  | nil => simp [checkDescs]
  | cons d ds ih =>
    simp only [checkDescs]
    cases h : lookupTable t d.idOf with
    | none =>
      simp only [ih, List.mem_cons]
      constructor
      · intro hall d2 hd2 p hp
        rcases hd2 with rfl | hd2
        · rw [h] at hp; cases hp
        · exact hall d2 hd2 p hp
      · intro hall d2 hd2 p hp
        exact hall d2 (Or.inr hd2) p hp
    | some p =>
      obtain ⟨dh, hp0⟩ := p
      by_cases hdh : dh = d.dimHashOf
      · by_cases hhp : hp0 = d.help
        · simp only [hdh, hhp, ne_eq, not_true_eq_false, if_false, ih,
            List.mem_cons]
          constructor
          · intro hall d2 hd2 q hq
            rcases hd2 with rfl | hd2
            · rw [h] at hq
              cases hq
              exact ⟨hdh, hhp⟩
            · exact hall d2 hd2 q hq
          · intro hall d2 hd2 q hq
            exact hall d2 (Or.inr hd2) q hq
        · simp only [hdh, ne_eq, not_true_eq_false, if_false, hhp,
            not_false_eq_true, if_true]
          constructor
          · intro hc; cases hc
          · intro hall
            have := (hall d (by simp) (dh, hp0) h).2
            simp only [hdh] at this
            exact absurd this hhp
      · simp only [ne_eq, hdh, not_false_eq_true, if_true]
        constructor
        · intro hc; cases hc
        · intro hall
          exact absurd (hall d (by simp) (dh, hp0) h).1 hdh

lemma checkDescs_none_of_no_conflict (r : Registry) (c : Collector)
    (hdim : ¬ dimConflict r c) (hhelp : ¬ helpConflict r c) :
    checkDescs r.table c.descs = none := by
  rw [checkDescs_eq_none_iff]
  intro d hd p hp
  constructor
  · by_contra hne
    exact hdim ⟨d, hd, p, hp, hne⟩
  · by_contra hne
    have hdh : p.1 = d.dimHashOf := by
      by_contra hne2
      exact hdim ⟨d, hd, p, hp, hne2⟩
    exact hhelp ⟨d, hd, p, hp, hdh, hne⟩

lemma checkDescs_dim_aux (t : DescTable) (ds : List Desc)
    (hdim : ∃ d ∈ ds, ∃ p, lookupTable t d.idOf = some p ∧ p.1 ≠ d.dimHashOf)
    (hhelp : ¬ ∃ d ∈ ds, ∃ p, lookupTable t d.idOf = some p ∧
      p.1 = d.dimHashOf ∧ p.2 ≠ d.help) :
    checkDescs t ds = some .InconsistentLabelDimensionError := by
  induction ds with
  | nil => simp at hdim
  | cons d ds ih =>
    simp only [checkDescs]
    cases h : lookupTable t d.idOf with
    | none =>
      apply ih
      · obtain ⟨d0, hd0, p0, hp0, hne0⟩ := hdim
        rcases List.mem_cons.1 hd0 with rfl | hd0'
        · rw [h] at hp0; cases hp0
        · exact ⟨d0, hd0', p0, hp0, hne0⟩
      · intro ⟨d0, hd0, p0, hp0, hc⟩
        exact hhelp ⟨d0, List.mem_cons_of_mem d hd0, p0, hp0, hc⟩
    | some p =>
      obtain ⟨dh, hp0⟩ := p
      by_cases hdh : dh = d.dimHashOf
      · have hhp : hp0 = d.help := by
          by_contra hne
          exact hhelp ⟨d, List.mem_cons_self d ds, (dh, hp0), h, hdh, hne⟩
        simp only [hdh, hhp, ne_eq, not_true_eq_false, if_false]
        apply ih
        · obtain ⟨d0, hd0, p0, hq0, hne0⟩ := hdim
          rcases List.mem_cons.1 hd0 with rfl | hd0'
          · rw [h] at hq0
            cases hq0
            exact absurd hdh hne0
          · exact ⟨d0, hd0', p0, hq0, hne0⟩
        · intro ⟨d0, hd0, p0, hq0, hc⟩
          exact hhelp ⟨d0, List.mem_cons_of_mem d hd0, p0, hq0, hc⟩
      · simp [hdh]

lemma checkDescs_help_aux (t : DescTable) (ds : List Desc)
    (hhelp : ∃ d ∈ ds, ∃ p, lookupTable t d.idOf = some p ∧
      p.1 = d.dimHashOf ∧ p.2 ≠ d.help)
    (hdim : ¬ ∃ d ∈ ds, ∃ p, lookupTable t d.idOf = some p ∧ p.1 ≠ d.dimHashOf) :
    checkDescs t ds = some .InconsistentHelpError := by
  induction ds with
  | nil => simp at hhelp
  | cons d ds ih =>
    simp only [checkDescs]
    cases h : lookupTable t d.idOf with
    | none =>
      apply ih
      · obtain ⟨d0, hd0, p0, hp0, hc⟩ := hhelp
        rcases List.mem_cons.1 hd0 with rfl | hd0'
        · rw [h] at hp0; cases hp0
        · exact ⟨d0, hd0', p0, hp0, hc⟩
      · intro ⟨d0, hd0, p0, hp0, hc⟩
        exact hdim ⟨d0, List.mem_cons_of_mem d hd0, p0, hp0, hc⟩
    | some p =>
      obtain ⟨dh, hp0⟩ := p
      have hdh : dh = d.dimHashOf := by
        by_contra hne
        exact hdim ⟨d, List.mem_cons_self d ds, (dh, hp0), h, hne⟩
      by_cases hhp : hp0 = d.help
      · simp only [hdh, hhp, ne_eq, not_true_eq_false, if_false]
        apply ih
        · obtain ⟨d0, hd0, p0, hq0, hc⟩ := hhelp
          rcases List.mem_cons.1 hd0 with rfl | hd0'
          · rw [h] at hq0
            cases hq0
            exact absurd hhp hc.2
          · exact ⟨d0, hd0', p0, hq0, hc⟩
        · intro ⟨d0, hd0, p0, hq0, hc⟩
          exact hdim ⟨d0, List.mem_cons_of_mem d hd0, p0, hq0, hc⟩
      · simp [hdh, hhp]

lemma any_cid_iff (r : Registry) (c : Collector) :
    (r.collectors.any (fun c2 => c2.cid == c.cid) = true) ↔
      alreadyRegistered r c := by
  simp [alreadyRegistered, List.any_eq_true]

/-- C2: `Register(collector)` fails with `InconsistentLabelDimensionError`
when some existing registration has a descriptor with the same id but a
different dimHash; fails with `InconsistentHelpError` when same id and same
dimHash but different help; fails with `AlreadyRegisteredError` when the very
same collector instance is registered; in every other case it succeeds and
records the collector.  (The first two cases are stated mutually exclusive,
since with both kinds of violation present the reported error depends on
descriptor order.) -/
theorem register_error_cases (r : Registry) (c : Collector) :
    (dimConflict r c → ¬ helpConflict r c →
      (r.register c).2 = some .InconsistentLabelDimensionError)
  ∧ (helpConflict r c → ¬ dimConflict r c →
      (r.register c).2 = some .InconsistentHelpError)
  ∧ (¬ dimConflict r c → ¬ helpConflict r c → alreadyRegistered r c →
      (r.register c).2 = some .AlreadyRegisteredError)
  ∧ (¬ dimConflict r c → ¬ helpConflict r c → ¬ alreadyRegistered r c →
      (r.register c).2 = none ∧
      (r.register c).1.collectors = r.collectors ++ [c]) := by
  refine ⟨?_, ?_, ?_, ?_⟩
  · intro hdim hhelp
    have h := checkDescs_dim_aux r.table c.descs hdim hhelp
    simp [Registry.register, h]
  · intro hhelp hdim
    have h := checkDescs_help_aux r.table c.descs hhelp hdim
    simp [Registry.register, h]
  · intro hdim hhelp halready
    have h := checkDescs_none_of_no_conflict r c hdim hhelp
    have ha : r.collectors.any (fun c2 => c2.cid == c.cid) = true :=
      (any_cid_iff r c).2 halready
    simp [Registry.register, h, ha]
  · intro hdim hhelp halready
    have h := checkDescs_none_of_no_conflict r c hdim hhelp
    have ha : r.collectors.any (fun c2 => c2.cid == c.cid) = false := by
      rw [← Bool.not_eq_true, any_cid_iff]
      exact halready
    simp [Registry.register, h, ha]

/-- Concrete collector: one descriptor, one variable label. -/
def cA : Collector := ⟨1, [⟨"reqs", "help a", ["method"], []⟩], .ok []⟩

/-- Concrete collector whose descriptor shares `cA`'s id but has a different
label-name set (different dimHash). -/
def cB : Collector := ⟨2, [⟨"reqs", "help a", ["method", "code"], []⟩], .ok []⟩

/-- The registry holding exactly `cA`. -/
def rA : Registry := (Registry.empty.register cA).1

theorem register_error_cases_witness :
    dimConflict rA cB ∧ ¬ helpConflict rA cB ∧
      (rA.register cB).2 = some .InconsistentLabelDimensionError :=
  ⟨by decide, by decide, (register_error_cases rA cB).1 (by decide) (by decide)⟩

/-- C3: a failed `Register` leaves the registry exactly as before the call:
whenever `register` returns an error, the returned state (collector set and
id ↦ dimHash/help table alike) equals the input state. -/
theorem register_failure_preserves_state (r : Registry) (c : Collector)
    (e : RegError) (h : (r.register c).2 = some e) :
    (r.register c).1 = r := by
  cases hc : checkDescs r.table c.descs with
  | some e2 => simp [Registry.register, hc]
  | none =>
    by_cases ha : (r.collectors.any fun c2 => c2.cid == c.cid) = true
    · simp [Registry.register, hc, ha]
    · simp only [Bool.not_eq_true] at ha
      simp [Registry.register, hc, ha] at h

theorem register_failure_preserves_state_witness :
    (rA.register cB).2 = some .InconsistentLabelDimensionError ∧
      (rA.register cB).1 = rA :=
  ⟨by decide,
    register_failure_preserves_state rA cB .InconsistentLabelDimensionError
      (by decide)⟩

lemma lexLeN_total : ∀ a b : List Nat, lexLeN a b = true ∨ lexLeN b a = true := by
  intro a
  induction a with
  | nil => intro b; left; cases b <;> rfl
  | cons x as ih =>
    intro b
    cases b with
    | nil => right; rfl
    | cons y bs =>
      simp only [lexLeN]
      by_cases h1 : x < y
      · left; simp [h1]
      · by_cases h2 : x = y
        · subst h2
          simp only [h1, if_false, lt_irrefl, if_pos rfl]
          exact ih bs
        · have h3 : y < x := by omega
          right; simp [h3]

lemma lexLeN_trans : ∀ a b c : List Nat,
    lexLeN a b = true → lexLeN b c = true → lexLeN a c = true := by
  intro a
  induction a with
  | nil => intro b c _ _; cases c <;> rfl
  | cons x as ih =>
    intro b c hab hbc
    cases b with
    | nil => simp [lexLeN] at hab
    | cons y bs =>
      cases c with
      | nil => simp [lexLeN] at hbc
      | cons z cs =>
        simp only [lexLeN] at hab hbc ⊢
        by_cases h1 : x < y
        · by_cases h2 : y < z
          · have h3 : x < z := h1.trans h2
            simp [h3]
          · by_cases h3 : y = z
            · subst h3; simp [h1]
            · simp [h2, h3] at hbc
        · by_cases h2 : x = y
          · subst h2
            simp only [h1, if_false, lt_irrefl, if_pos rfl] at hab
            by_cases h3 : x < z
            · simp [h3]
            · by_cases h4 : x = z
              · subst h4
                simp only [h3, if_false, lt_irrefl, if_pos rfl] at hbc ⊢
                exact ih bs cs hab hbc
              · simp [h3, h4] at hbc
          · simp [h1, h2] at hab

instance : IsTotal String strLe := ⟨fun a b => lexLeN_total _ _⟩

instance : IsTrans String strLe := ⟨fun a b c => lexLeN_trans _ _ _⟩

/-- A separator code larger than any character code, so that joining label
values with it preserves tuple boundaries. -/
def labelSep : Nat := 4294967296

/-- The sort key of a label-value tuple: character codes of the values,
separated by `labelSep`. -/
def sepKey (vs : List String) : List Nat :=
  vs.flatMap (fun s => strKey s ++ [labelSep])

/-- The order used to sort series inside a family: lexicographic on the
label-value tuple. -/
def tupleLe (a b : List String) : Prop := lexLeN (sepKey a) (sepKey b) = true

instance : DecidableRel tupleLe := fun a b => by
  unfold tupleLe; infer_instance

instance : IsTotal (List String) tupleLe := ⟨fun a b => lexLeN_total _ _⟩

instance : IsTrans (List String) tupleLe := ⟨fun a b c => lexLeN_trans _ _ _⟩

/-- Modelled from the spec: the gathered grouping of all series sharing one
family name — the family name together with its (labelValues, value) series
(§6 "Registry output contract"; help/type tags carry no content relevant to
the ordering and partial-failure claims and are left out). -/
structure MetricFamily where
  name : String
  series : List (List String × ℚ)
deriving DecidableEq, Repr

/-- Families are sorted by name. -/
def famLe (f g : MetricFamily) : Prop := strLe f.name g.name

instance : DecidableRel famLe := fun f g => by
  unfold famLe; infer_instance

instance : IsTotal MetricFamily famLe := ⟨fun a b => IsTotal.total (r := strLe) _ _⟩

instance : IsTrans MetricFamily famLe :=
  ⟨fun a b c => IsTrans.trans (r := strLe) _ _ _⟩

/-- Series inside a family are sorted by label-value tuple. -/
def seriesLe (p q : List String × ℚ) : Prop := tupleLe p.1 q.1

instance : DecidableRel seriesLe := fun p q => by
  unfold seriesLe; infer_instance

instance : IsTotal (List String × ℚ) seriesLe :=
  ⟨fun a b => IsTotal.total (r := tupleLe) _ _⟩

instance : IsTrans (List String × ℚ) seriesLe :=
  ⟨fun a b c => IsTrans.trans (r := tupleLe) _ _ _⟩

/-- The samples streamed into the intake by the collectors whose `Collect`
succeeded (a failed collector contributes nothing). -/
def Registry.okSamples (r : Registry) : List Sample :=
  r.collectors.flatMap fun c =>
    match c.outcome with
    | .ok ss => ss
    | .failed _ => []

/-- The error entries contributed by collectors whose `Collect` panicked or
returned an error: each is caught at the fan-out boundary and converted into
an aggregated-error entry (§4.3, §7). -/
def Registry.collectErrors (r : Registry) : List String :=
  r.collectors.filterMap fun c =>
    match c.outcome with
    | .ok _ => none
    | .failed m => some m

/-- The identity of a series inside the gathered output: family name plus
label-value tuple. -/
def seriesKey (s : Sample) : String × List String := (s.name, s.labelValues)

/-- Modelled from the spec: duplicate detection during grouping (§4.3) —
a series whose (family, label tuple) was already taken in is reported as an
error and excluded; valid series are kept. -/
def dedupSamples (seen : List (String × List String)) :
    List Sample → List Sample × List String
  | [] => ([], [])
  | s :: ss =>
    if seriesKey s ∈ seen then
      let rest := dedupSamples seen ss
      (rest.1, ("duplicate series in family " ++ s.name) :: rest.2)
    else
      let rest := dedupSamples (seriesKey s :: seen) ss
      (s :: rest.1, rest.2)

/-- Group the intake by family name and sort each family's series by label
tuple (§4.3). -/
def buildFamilies (ss : List Sample) : List MetricFamily :=
  ((ss.map Sample.name).dedup).map fun n =>
    ⟨n, List.insertionSort seriesLe
      ((ss.filter (fun s => s.name == n)).map fun s => (s.labelValues, s.value))⟩

/-- Modelled from the spec: `Gather()` (§4.3): collect from every registered
collector, convert failures into aggregated error entries, group the intake
into families (excluding and reporting duplicate series), sort families by
name and series within each family by label tuple. -/
def Registry.gather (r : Registry) : List MetricFamily × List String :=
  (List.insertionSort famLe (buildFamilies (dedupSamples [] r.okSamples).1),
   r.collectErrors ++ (dedupSamples [] r.okSamples).2)

/-- C5: `Gather()` output is deterministically ordered: the family list is
sorted by family name, within each family the series are sorted by their
label-value tuples, and the output is a function of the registry state alone,
so repeated calls on the same state yield the same order. -/
theorem gather_deterministic_order (r : Registry) :
    ((r.gather).1.map MetricFamily.name).Sorted strLe
  ∧ (∀ f ∈ (r.gather).1, f.series.Sorted seriesLe)
  ∧ (∀ r2 : Registry, r2 = r → r2.gather = r.gather) := by
  refine ⟨?_, ?_, ?_⟩
  · have h := List.sorted_insertionSort famLe
      (buildFamilies (dedupSamples [] r.okSamples).1)
    exact List.Pairwise.map MetricFamily.name (fun a b hab => hab) h
  · intro f hf
    have hf2 : f ∈ buildFamilies (dedupSamples [] r.okSamples).1 := by
      rw [← List.mem_insertionSort famLe]
      exact hf
    unfold buildFamilies at hf2
    obtain ⟨n, _, rfl⟩ := List.mem_map.1 hf2
    exact List.sorted_insertionSort seriesLe _
  · intro r2 h
    rw [h]

/-- A concrete registry used by the gather witnesses: one collector that
collects a sample and one whose `Collect` fails. -/
def cGood : Collector := ⟨1, [], .ok [⟨"fam", ["a"], 2⟩]⟩

/-- A collector whose `Collect` panics. -/
def cBad : Collector := ⟨2, [], .failed "collector panicked"⟩

/-- Registry with a healthy and a failing collector. -/
def rGat : Registry := ⟨[cGood, cBad], []⟩

theorem gather_deterministic_order_witness :
    ((rGat.gather).1.map MetricFamily.name).Sorted strLe ∧
      rGat.gather = rGat.gather :=
  ⟨(gather_deterministic_order rGat).1,
    (gather_deterministic_order rGat).2.2 rGat rfl⟩

lemma dedupSamples_keep (ss : List Sample) :
    ∀ seen : List (String × List String),
      (ss.map seriesKey).Nodup →
      (∀ s ∈ ss, seriesKey s ∉ seen) →
      (dedupSamples seen ss).1 = ss := by
  induction ss with
  | nil => intro seen _ _; rfl
  | cons s ss ih =>
    intro seen hnd hdisj
    have hs : seriesKey s ∉ seen := hdisj s (List.mem_cons_self s ss)
    simp only [dedupSamples, if_neg hs]
    rw [List.map_cons] at hnd
    have hnd2 := List.nodup_cons.1 hnd
    have htl : (dedupSamples (seriesKey s :: seen) ss).1 = ss := by
      apply ih
      · exact hnd2.2
      · intro t ht
        simp only [List.mem_cons]
        push_neg
        constructor
        · intro hkey
          exact hnd2.1 (hkey ▸ List.mem_map_of_mem seriesKey ht)
        · exact hdisj t (List.mem_cons_of_mem s ht)
    rw [htl]

lemma mem_gather_families (r : Registry)
    (hnodup : ((r.okSamples).map seriesKey).Nodup)
    (s : Sample) (hs : s ∈ r.okSamples) :
    ∃ f ∈ (r.gather).1, f.name = s.name ∧
      (s.labelValues, s.value) ∈ f.series := by
  have hkeep : (dedupSamples [] r.okSamples).1 = r.okSamples :=
    dedupSamples_keep r.okSamples [] hnodup (by simp)
  refine ⟨⟨s.name, List.insertionSort seriesLe
      ((r.okSamples.filter (fun t => t.name == s.name)).map
        fun t => (t.labelValues, t.value))⟩, ?_, rfl, ?_⟩
  · show _ ∈ (r.gather).1
    unfold Registry.gather
    rw [List.mem_insertionSort]
    unfold buildFamilies
    rw [hkeep]
    exact List.mem_map.2 ⟨s.name,
      List.mem_dedup.2 (List.mem_map_of_mem Sample.name hs), rfl⟩
  · rw [List.mem_insertionSort]
    exact List.mem_map.2 ⟨s, List.mem_filter.2 ⟨hs, by simp⟩, rfl⟩

/-- C1: a panic or error inside one collector's `Collect` is caught at the
fan-out boundary and becomes an entry of the aggregated gather error, and
every sample collected by the other collectors still appears in the returned
families (assuming the successful collectors' samples contain no duplicate
series, which are a separate error reported and excluded by §4.3); `Gather`
never fails wholesale because of one misbehaving collector. -/
theorem gather_isolates_failures (r : Registry)
    (hnodup : ((r.okSamples).map seriesKey).Nodup) :
    (∀ c ∈ r.collectors, ∀ msg, c.outcome = .failed msg → msg ∈ (r.gather).2)
  ∧ (∀ c ∈ r.collectors, ∀ ss, c.outcome = .ok ss → ∀ s ∈ ss,
      ∃ f ∈ (r.gather).1, f.name = s.name ∧
        (s.labelValues, s.value) ∈ f.series) := by
  constructor
  · intro c hc msg hout
    show msg ∈ (r.gather).2
    unfold Registry.gather
    apply List.mem_append_left
    exact List.mem_filterMap.2 ⟨c, hc, by rw [hout]⟩
  · intro c hc ss hout s hsmem
    apply mem_gather_families r hnodup
    exact List.mem_flatMap.2 ⟨c, hc, by rw [hout]; exact hsmem⟩

theorem gather_isolates_failures_witness :
    ((rGat.okSamples).map seriesKey).Nodup ∧
      "collector panicked" ∈ (rGat.gather).2 ∧
      ∃ f ∈ (rGat.gather).1, f.name = "fam" ∧
        (["a"], (2 : ℚ)) ∈ f.series := by
  have h := gather_isolates_failures rGat (by decide)
  refine ⟨by decide, h.1 cBad (by decide) _ rfl, ?_⟩
  exact h.2 cGood (by decide) _ rfl ⟨"fam", ["a"], 2⟩ (List.mem_singleton.2 rfl)

/-- Modelled from the spec: the hash over the concatenation of the label
values in descriptor-defined order (§4.2), used only as an index accelerator.
Embedded as a genuinely collidable function (sum of character codes) so the
exact-value-comparison path is exercised. -/
def hashLV (vs : List String) : Nat :=
  vs.foldl (fun h s => h + (strKey s).sum) 0

/-- A vector-owned metric instance: its identity (`mid`, modelling the
pointer identity of the returned instance) and its accumulated value. -/
structure VMetric where
  mid : Nat
  value : ℚ
deriving DecidableEq, Repr

/-- Modelled from the spec: a Metric Vector owns a mapping from a
label-value tuple (and its hash) to an owned Metric instance (§3, §4.2);
`nextId` models fresh-instance allocation. -/
structure MetricVec where
  entries : List (Nat × List String × VMetric)
  nextId : Nat
deriving DecidableEq, Repr

/-- The empty vector. -/
def MetricVec.empty : MetricVec := ⟨[], 0⟩

/-- The vector's hash-then-exact-compare probe of the mapping (§4.2). -/
def probe (vals : List String) (e : Nat × List String × VMetric) : Bool :=
  e.1 == hashLV vals && e.2.1 == vals

/-- Modelled from the spec (§4.2): compute the hash over the label values,
probe the mapping; on a hash hit compare the stored tuple for exact equality
(defending against hash collision) and return the existing Metric; on a miss
construct a new Metric, insert it, and return it. -/
def MetricVec.getOrCreateWithLabelValues (v : MetricVec) (vals : List String) :
    VMetric × MetricVec :=
  match v.entries.find? (probe vals) with
  | some e => (e.2.2, v)
  | none =>
    let m : VMetric := ⟨v.nextId, 0⟩
    (m, ⟨v.entries ++ [(hashLV vals, vals, m)], v.nextId + 1⟩)

/-- The metric instance currently held for a tuple, if any. -/
def MetricVec.lookup (v : MetricVec) (vals : List String) : Option VMetric :=
  (v.entries.find? (probe vals)).map fun e => e.2.2

/-- Modelled from the spec: `DeleteWithLabelValues(values) bool` (§4.2)
removes the series for that tuple, reporting whether it was present. -/
def MetricVec.deleteWithLabelValues (v : MetricVec) (vals : List String) :
    MetricVec × Bool :=
  match v.entries.find? (probe vals) with
  | some _ => (⟨v.entries.filter (fun e => !(probe vals e)), v.nextId⟩, true)
  | none => (v, false)

/-- The vector's `Collect` snapshot: every currently live series with its
label tuple and accumulated value (§4.2). -/
def MetricVec.collect (v : MetricVec) : List (List String × ℚ) :=
  v.entries.map fun e => (e.2.1, e.2.2.value)

/-- Well-formedness maintained by every vector operation: each stored hash is
the hash of the stored tuple, at most one entry per distinct tuple, and
instance identities are injective and below `nextId`. -/
def MetricVec.WF (v : MetricVec) : Prop :=
  (∀ e ∈ v.entries, e.1 = hashLV e.2.1 ∧ e.2.2.mid < v.nextId)
  ∧ (v.entries.map fun e => e.2.1).Nodup
  ∧ (v.entries.map fun e => e.2.2.mid).Nodup

instance (v : MetricVec) : Decidable (v.WF) := by
  unfold MetricVec.WF; infer_instance

lemma find?_filter_of_imp {α : Type} (p q : α → Bool) (l : List α)
    (h : ∀ e, q e = false → p e = false) :
    (l.filter q).find? p = l.find? p := by
  induction l with
  | nil => rfl
  | cons e l ih =>
    by_cases hq : q e = true
    · rw [List.filter_cons_of_pos hq]
      by_cases hp : p e = true
      · rw [List.find?_cons_of_pos _ hp, List.find?_cons_of_pos _ hp]
      · rw [List.find?_cons_of_neg _ hp, List.find?_cons_of_neg _ hp]
        exact ih
    · have hq2 : q e = false := by
        cases hqe : q e
        · rfl
        · exact absurd hqe hq
      have hp2 : ¬ p e = true := by
        rw [h e hq2]
        exact Bool.false_ne_true
      rw [List.filter_cons_of_neg hq, List.find?_cons_of_neg _ hp2]
      exact ih

lemma find?_append_of_none {α : Type} (p : α → Bool) (l1 l2 : List α)
    (h : l1.find? p = none) : (l1 ++ l2).find? p = l2.find? p := by
  induction l1 with
  | nil => rfl
  | cons e l1 ih =>
    rw [List.find?_cons] at h
    cases hpe : p e
    · rw [hpe] at h
      rw [List.cons_append, List.find?_cons, hpe]
      exact ih h
    · rw [hpe] at h; cases h

lemma probe_eq_true_iff (vals : List String) (e : Nat × List String × VMetric)
    (he : e.1 = hashLV e.2.1) : probe vals e = true ↔ e.2.1 = vals := by
  unfold probe
  constructor
  · intro h
    rw [Bool.and_eq_true] at h
    exact eq_of_beq h.2
  · intro h
    rw [he, h]
    simp

lemma no_entry_of_find?_none (v : MetricVec) (vals : List String) (hwf : v.WF)
    (hnone : v.entries.find? (probe vals) = none) :
    ∀ e ∈ v.entries, e.2.1 ≠ vals := by
  intro e he
  have hp := List.find?_eq_none.1 hnone e he
  intro habs
  exact hp ((probe_eq_true_iff vals e (hwf.1 e he).1).2 habs)

lemma getOrCreate_wf (v : MetricVec) (vals : List String) (hwf : v.WF) :
    ((v.getOrCreateWithLabelValues vals).2).WF := by
  unfold MetricVec.getOrCreateWithLabelValues
  cases hf : v.entries.find? (probe vals) with
  | some e => exact hwf
  | none =>
    refine ⟨?_, ?_, ?_⟩
    · intro e he
      rcases List.mem_append.1 he with he2 | he2
      · exact ⟨(hwf.1 e he2).1, Nat.lt_succ_of_lt (hwf.1 e he2).2⟩
      · rw [List.mem_singleton.1 he2]
        exact ⟨rfl, Nat.lt_succ_self _⟩
    · rw [List.map_append]
      rw [List.nodup_append]
      refine ⟨hwf.2.1, List.nodup_singleton _, ?_⟩
      intro t ht ht2
      simp only [List.map_cons, List.map_nil, List.mem_singleton] at ht2
      obtain ⟨e, he, het⟩ := List.mem_map.1 ht
      exact no_entry_of_find?_none v vals hwf hf e he (by rw [het, ht2])
    · rw [List.map_append]
      rw [List.nodup_append]
      refine ⟨hwf.2.2, List.nodup_singleton _, ?_⟩
      intro t ht ht2
      simp only [List.map_cons, List.map_nil, List.mem_singleton] at ht2
      obtain ⟨e, he, het⟩ := List.mem_map.1 ht
      have := (hwf.1 e he).2
      rw [het, ht2] at this
      exact Nat.lt_irrefl _ this

lemma getOrCreate_of_lookup_some (v : MetricVec) (vals : List String)
    (m : VMetric) (h : v.lookup vals = some m) :
    v.getOrCreateWithLabelValues vals = (m, v) := by
  unfold MetricVec.lookup at h
  unfold MetricVec.getOrCreateWithLabelValues
  cases hf : v.entries.find? (probe vals) with
  | none => rw [hf] at h; cases h
  | some e =>
    rw [hf] at h
    have hm : e.2.2 = m := by simpa using h
    show (e.2.2, v) = (m, v)
    rw [hm]

lemma lookup_after_getOrCreate (v : MetricVec) (vals : List String) :
    ((v.getOrCreateWithLabelValues vals).2).lookup vals =
      some (v.getOrCreateWithLabelValues vals).1 := by
  unfold MetricVec.getOrCreateWithLabelValues
  cases hf : v.entries.find? (probe vals) with
  | some e =>
    show v.lookup vals = some e.2.2
    unfold MetricVec.lookup
    rw [hf]
    rfl
  | none =>
    show MetricVec.lookup ⟨v.entries ++ [(hashLV vals, vals, ⟨v.nextId, 0⟩)], _⟩
      vals = _
    unfold MetricVec.lookup
    rw [find?_append_of_none _ _ _ hf,
      List.find?_cons_of_pos _ (by simp [probe])]
    rfl

lemma entry_of_lookup (v : MetricVec) (vals : List String) (m : VMetric)
    (hwf : v.WF) (h : v.lookup vals = some m) :
    ∃ e ∈ v.entries, e.2.1 = vals ∧ e.2.2 = m := by
  unfold MetricVec.lookup at h
  cases hf : v.entries.find? (probe vals) with
  | none => rw [hf] at h; cases h
  | some e =>
    rw [hf] at h
    have hm : e.2.2 = m := by simpa using h
    have he := List.mem_of_find?_eq_some hf
    have hp := List.find?_some hf
    exact ⟨e, he, (probe_eq_true_iff vals e (hwf.1 e he).1).1 hp, hm⟩

lemma mid_lt_nextId_of_lookup (v : MetricVec) (vals : List String)
    (m : VMetric) (hwf : v.WF) (h : v.lookup vals = some m) :
    m.mid < v.nextId := by
  obtain ⟨e, he, _, hm⟩ := entry_of_lookup v vals m hwf h
  rw [← hm]
  exact (hwf.1 e he).2

lemma getOrCreate_distinct (v : MetricVec) (a b : List String) (hwf : v.WF)
    (hab : a ≠ b) :
    (((v.getOrCreateWithLabelValues a).2).getOrCreateWithLabelValues b).1.mid
      ≠ (v.getOrCreateWithLabelValues a).1.mid := by
  set v1 := (v.getOrCreateWithLabelValues a).2 with hv1
  set m1 := (v.getOrCreateWithLabelValues a).1 with hm1
  have hwf1 : v1.WF := getOrCreate_wf v a hwf
  have hl1 : v1.lookup a = some m1 := lookup_after_getOrCreate v a
  obtain ⟨e1, he1, he1t, he1m⟩ := entry_of_lookup v1 a m1 hwf1 hl1
  unfold MetricVec.getOrCreateWithLabelValues
  cases hf : v1.entries.find? (probe b) with
  | some e =>
    have he := List.mem_of_find?_eq_some hf
    have hp := List.find?_some hf
    have het : e.2.1 = b := (probe_eq_true_iff b e (hwf1.1 e he).1).1 hp
    show e.2.2.mid ≠ m1.mid
    intro habs
    have heq : e = e1 := by
      apply List.inj_on_of_nodup_map hwf1.2.2 he he1
      rw [habs, he1m]
    rw [heq, he1t] at het
    exact hab het
  | none =>
    have hlt : m1.mid < v1.nextId := mid_lt_nextId_of_lookup v1 a m1 hwf1 hl1
    show v1.nextId ≠ m1.mid
    intro habs
    rw [← habs] at hlt
    exact Nat.lt_irrefl _ hlt

/-- C4: `GetOrCreateWithLabelValues` is reference-stable: on a well-formed
vector, a repeated call with the identical tuple returns the same Metric
instance and leaves the vector unchanged; a call with a different tuple
returns a distinct instance (even under hash collision, since tuple equality
is decided by exact value comparison); and well-formedness — in particular
the at-most-one-instance-per-tuple invariant — is preserved. -/
theorem getOrCreate_reference_stable (v : MetricVec) (a b : List String)
    (hwf : v.WF) :
    (((v.getOrCreateWithLabelValues a).2).getOrCreateWithLabelValues a
        = ((v.getOrCreateWithLabelValues a).1,
           (v.getOrCreateWithLabelValues a).2))
  ∧ (a ≠ b →
      (((v.getOrCreateWithLabelValues a).2).getOrCreateWithLabelValues b).1.mid
        ≠ (v.getOrCreateWithLabelValues a).1.mid)
  ∧ ((v.getOrCreateWithLabelValues a).2).WF :=
  ⟨getOrCreate_of_lookup_some _ a _ (lookup_after_getOrCreate v a),
    fun hab => getOrCreate_distinct v a b hwf hab,
    getOrCreate_wf v a hwf⟩

theorem getOrCreate_reference_stable_witness :
    (["ab"] : List String) ≠ ["ba"] ∧ hashLV ["ab"] = hashLV ["ba"] ∧
    MetricVec.empty.WF ∧
    ((MetricVec.empty.getOrCreateWithLabelValues
        ["ab"]).2.getOrCreateWithLabelValues ["ab"]
      = ((MetricVec.empty.getOrCreateWithLabelValues ["ab"]).1,
         (MetricVec.empty.getOrCreateWithLabelValues ["ab"]).2)) ∧
    ((MetricVec.empty.getOrCreateWithLabelValues
        ["ab"]).2.getOrCreateWithLabelValues ["ba"]).1.mid
      ≠ ((MetricVec.empty.getOrCreateWithLabelValues ["ab"]).1).mid := by
  have h := getOrCreate_reference_stable MetricVec.empty ["ab"] ["ba"] (by decide)
  exact ⟨by decide, by decide, by decide, h.1, h.2.1 (by decide)⟩

lemma delete_frame_lookup (v : MetricVec) (vals w : List String)
    (hw : w ≠ vals) :
    ((v.deleteWithLabelValues vals).1).lookup w = v.lookup w := by
  unfold MetricVec.deleteWithLabelValues
  cases hf : v.entries.find? (probe vals) with
  | none => rfl
  | some e0 =>
    show MetricVec.lookup ⟨v.entries.filter (fun e => !(probe vals e)),
      v.nextId⟩ w = v.lookup w
    unfold MetricVec.lookup
    rw [find?_filter_of_imp]
    intro e2 hq
    have hv : probe vals e2 = true := by
      cases hpv : probe vals e2
      · rw [hpv] at hq; cases hq
      · rfl
    have ht : e2.2.1 = vals := by
      unfold probe at hv
      rw [Bool.and_eq_true] at hv
      exact eq_of_beq hv.2
    show probe w e2 = false
    unfold probe
    have hne : (e2.2.1 == w) = false := by
      rw [beq_eq_false_iff_ne, ht]
      exact fun hh => hw hh.symm
    rw [hne, Bool.and_false]

lemma delete_collect (v : MetricVec) (vals : List String) (hwf : v.WF) :
    ∀ p, p ∈ ((v.deleteWithLabelValues vals).1).collect ↔
      (p ∈ v.collect ∧ p.1 ≠ vals) := by
  intro p
  unfold MetricVec.deleteWithLabelValues
  cases hf : v.entries.find? (probe vals) with
  | none =>
    have hno := no_entry_of_find?_none v vals hwf hf
    show p ∈ v.collect ↔ _
    constructor
    · intro hp
      refine ⟨hp, ?_⟩
      obtain ⟨e, he, rfl⟩ := List.mem_map.1 hp
      exact hno e he
    · exact fun h => h.1
  | some e0 =>
    show p ∈ MetricVec.collect ⟨v.entries.filter (fun e => !(probe vals e)),
      v.nextId⟩ ↔ _
    unfold MetricVec.collect
    constructor
    · intro hp
      obtain ⟨e, he, rfl⟩ := List.mem_map.1 hp
      rw [List.mem_filter] at he
      have hne : e.2.1 ≠ vals := by
        intro habs
        have hpt : probe vals e = true :=
          (probe_eq_true_iff vals e (hwf.1 e he.1).1).2 habs
        rw [hpt] at he
        simpa using he.2
      exact ⟨List.mem_map.2 ⟨e, he.1, rfl⟩, hne⟩
    · intro hp
      obtain ⟨hp1, hne⟩ := hp
      obtain ⟨e, he, rfl⟩ := List.mem_map.1 hp1
      refine List.mem_map.2 ⟨e, List.mem_filter.2 ⟨he, ?_⟩, rfl⟩
      have hfalse : probe vals e = false := by
        cases hpv : probe vals e
        · rfl
        · exact absurd ((probe_eq_true_iff vals e (hwf.1 e he).1).1 hpv) hne
      rw [hfalse]
      rfl

/-- C8: deleting one label-value combination removes that series from the
vector's subsequent `Collect` (hence Gather) output, while every other
existing combination keeps exactly its Metric instance and accumulated
value. -/
theorem deleteWithLabelValues_frame (v : MetricVec) (vals : List String)
    (hwf : v.WF) :
    (∀ p, p ∈ ((v.deleteWithLabelValues vals).1).collect ↔
      (p ∈ v.collect ∧ p.1 ≠ vals))
  ∧ (∀ w, w ≠ vals →
      ((v.deleteWithLabelValues vals).1).lookup w = v.lookup w) :=
  ⟨delete_collect v vals hwf, fun w hw => delete_frame_lookup v vals w hw⟩

/-- A concrete two-series vector for the deletion witness. -/
def vTwo : MetricVec :=
  ⟨[(hashLV ["a"], ["a"], ⟨0, 5⟩), (hashLV ["b"], ["b"], ⟨1, 7⟩)], 2⟩

theorem deleteWithLabelValues_frame_witness :
    vTwo.WF ∧
    (["a"], (5 : ℚ)) ∉ ((vTwo.deleteWithLabelValues ["a"]).1).collect ∧
    ((vTwo.deleteWithLabelValues ["a"]).1).lookup ["b"] = vTwo.lookup ["b"] := by
  have h := deleteWithLabelValues_frame vTwo ["a"] (by decide)
  refine ⟨by decide, ?_, h.2 ["b"] (by decide)⟩
  intro habs
  exact ((h.1 (["a"], 5)).1 habs).2 rfl

/-- Modelled from the spec: Histogram state (§3): ascending finite bucket
upper bounds; a cumulative-count array one longer than the bounds, whose
final entry is the implicit "+infinity" bucket; running sum of observed
values; running total count. -/
structure Histogram where
  bounds : List ℚ
  cum : List Nat
  sum : ℚ
  count : Nat
deriving DecidableEq, Repr

/-- A fresh histogram over the given finite bounds: every cumulative count
(the +infinity bucket included) is zero. -/
def Histogram.new (bounds : List ℚ) : Histogram :=
  ⟨bounds, List.replicate (bounds.length + 1) 0, 0, 0⟩

/-- Modelled from the spec (§4.4): the index of the first bucket whose upper
bound is ≥ the observed value — the result computed by the binary search over
the ascending bounds; a value above every finite bound lands in the
+infinity bucket at index `bounds.length`. -/
def bucketIdx (bounds : List ℚ) (v : ℚ) : Nat :=
  match bounds with
  | [] => 0
  | b :: bs => if v ≤ b then 0 else bucketIdx bs v + 1

/-- Increment every cumulative counter at index `j` and above — the
cumulative encoding of an observation falling into bucket `j` (§4.4). -/
def incFrom : Nat → List Nat → List Nat
  | _, [] => []
  | 0, c :: cs => (c + 1) :: incFrom 0 cs
  | j + 1, c :: cs => c :: incFrom j cs

/-- Modelled from the spec: `Observe(value)` (§4.4): locate the bucket by the
first-bound-≥-value search, increment the cumulative counters at and above
the matched index, add the value to the running sum, increment the total
count. -/
def Histogram.observe (h : Histogram) (v : ℚ) : Histogram :=
  ⟨h.bounds, incFrom (bucketIdx h.bounds v) h.cum, h.sum + v, h.count + 1⟩

/-- Observe a sequence of values in order: the reachable histogram states. -/
def Histogram.observeAll (h : Histogram) (vs : List ℚ) : Histogram :=
  vs.foldl Histogram.observe h

lemma bucketIdx_le_length (bounds : List ℚ) (v : ℚ) :
    bucketIdx bounds v ≤ bounds.length := by
  induction bounds with
  | nil => exact Nat.le_refl 0
  | cons b bs ih =>
    unfold bucketIdx
    by_cases hb : v ≤ b
    · simp [hb]
    · simp only [hb, if_false, List.length_cons]
      exact Nat.succ_le_succ ih

lemma incFrom_length (j : Nat) (l : List Nat) :
    (incFrom j l).length = l.length := by
  induction l generalizing j with
  | nil => simp [incFrom]
  | cons c cs ih =>
    cases j with
    | zero => simp [incFrom, ih]
    | succ j => simp [incFrom, ih]

lemma incFrom_cons (j : Nat) (c : Nat) (cs : List Nat) :
    incFrom j (c :: cs) =
      (if j = 0 then c + 1 else c) :: incFrom (j - 1) cs := by
  cases j with
  | zero => simp [incFrom]
  | succ j => simp [incFrom]

lemma chain'_incFrom (l : List Nat) :
    ∀ j, List.Chain' (· ≤ ·) l → List.Chain' (· ≤ ·) (incFrom j l) := by
  induction l with
  | nil => intro j _; simp [incFrom]
  | cons c cs ih =>
    intro j hch
    rw [incFrom_cons]
    cases cs with
    | nil =>
      cases hj : j - 1 <;> simp [incFrom]
    | cons c2 cs2 =>
      have hcc : c ≤ c2 := (List.chain'_cons.1 hch).1
      rw [incFrom_cons]
      refine List.chain'_cons.2 ⟨?_, ?_⟩
      · split_ifs <;> omega
      · rw [← incFrom_cons]
        exact ih (j - 1) hch.tail

lemma incFrom_getLast? (l : List Nat) :
    ∀ j n, j < l.length → l.getLast? = some n →
      (incFrom j l).getLast? = some (n + 1) := by
  induction l with
  | nil => intro j n hj _; cases hj
  | cons c cs ih =>
    intro j n hj hlast
    rw [incFrom_cons]
    cases cs with
    | nil =>
      have hj0 : j = 0 := by
        simpa using Nat.lt_one_iff.1 (by simpa using hj)
      subst hj0
      have hn : c = n := by simpa using hlast
      subst hn
      simp [incFrom]
    | cons c2 cs2 =>
      have h1 : ((if j = 0 then c + 1 else c) ::
          incFrom (j - 1) (c2 :: cs2)).getLast? =
          (incFrom (j - 1) (c2 :: cs2)).getLast? := by
        rw [incFrom_cons]
        exact List.getLast?_cons_cons
      rw [h1]
      apply ih
      · have := incFrom_length (j - 1) (c2 :: cs2)
        simp only [List.length_cons] at hj ⊢
        omega
      · simpa using hlast

lemma observe_invariant (h : Histogram)
    (hlen : h.cum.length = h.bounds.length + 1)
    (hch : List.Chain' (· ≤ ·) h.cum)
    (hlast : h.cum.getLast? = some h.count) (v : ℚ) :
    (h.observe v).cum.length = (h.observe v).bounds.length + 1
    ∧ List.Chain' (· ≤ ·) (h.observe v).cum
    ∧ (h.observe v).cum.getLast? = some (h.observe v).count := by
  unfold Histogram.observe
  refine ⟨by simp [incFrom_length, hlen], chain'_incFrom _ _ hch, ?_⟩
  apply incFrom_getLast?
  · rw [hlen]
    exact Nat.lt_succ_of_le (bucketIdx_le_length _ _)
  · exact hlast

/-- C7: for every reachable histogram state — any sequence of `Observe`
calls starting from a fresh histogram over any bounds — the cumulative
bucket counts are monotonically non-decreasing in bucket index, and the
count of the last (+infinity) bucket equals the running total count. -/
theorem histogram_reachable_invariant (bounds : List ℚ) (vs : List ℚ) :
    List.Chain' (· ≤ ·) (((Histogram.new bounds).observeAll vs).cum)
    ∧ (((Histogram.new bounds).observeAll vs).cum).getLast?
        = some ((Histogram.new bounds).observeAll vs).count := by
  suffices hgen : ∀ h : Histogram, h.cum.length = h.bounds.length + 1 →
      List.Chain' (· ≤ ·) h.cum → h.cum.getLast? = some h.count →
      ((h.observeAll vs).cum.length = (h.observeAll vs).bounds.length + 1
      ∧ List.Chain' (· ≤ ·) (h.observeAll vs).cum
      ∧ (h.observeAll vs).cum.getLast? = some (h.observeAll vs).count) by
    have hbase := hgen (Histogram.new bounds) (by simp [Histogram.new])
      (List.chain'_replicate_of_rel _ le_rfl)
      (by simp [Histogram.new, List.getLast?_replicate])
    exact ⟨hbase.2.1, hbase.2.2⟩
  induction vs with
  | nil => intro h h1 h2 h3; exact ⟨h1, h2, h3⟩
  | cons v vs ih =>
    intro h h1 h2 h3
    have step := observe_invariant h h1 h2 h3 v
    exact ih (h.observe v) step.1 step.2.1 step.2.2

/-- C6: for a histogram with bucket bounds [1, 5, 10] (plus the implicit
+infinity bound), after observing 0.5, 3, 7 and 50 the cumulative counts for
the three finite bounds are [1, 2, 3] (the +infinity bucket holds 4), the
total count is 4 and the running sum is 60.5. -/
theorem histogram_example :
    ((Histogram.new [1, 5, 10]).observeAll [1/2, 3, 7, 50]).cum.take 3
        = [1, 2, 3]
  ∧ ((Histogram.new [1, 5, 10]).observeAll [1/2, 3, 7, 50]).cum = [1, 2, 3, 4]
  ∧ ((Histogram.new [1, 5, 10]).observeAll [1/2, 3, 7, 50]).count = 4
  ∧ ((Histogram.new [1, 5, 10]).observeAll [1/2, 3, 7, 50]).sum = 121/2 := by
  norm_num [Histogram.observeAll, Histogram.observe, Histogram.new,
    bucketIdx, incFrom]

/-- Modelled from the spec (§5): a counter update is a single lock-free
atomic numeric operation, so a concurrent execution of `T`
goroutine-equivalents each performing `Inc()` is an arbitrary interleaving:
a list of events, each naming the thread that performed one atomic
increment.  `counterRun` folds the atomic increments over one interleaving,
starting from zero. -/
def counterRun (events : List Nat) : Nat :=
  events.foldl (fun c _ => c + 1) 0

lemma foldl_inc (l : List Nat) :
    ∀ n : Nat, l.foldl (fun c _ => c + 1) n = n + l.length := by
  induction l with
  | nil => intro n; simp
  | cons e l ih =>
    intro n
    rw [List.foldl_cons, ih]
    simp only [List.length_cons]
    omega

lemma length_eq_sum_countP (T : Nat) (es : List Nat)
    (hlt : ∀ e ∈ es, e < T) :
    es.length = ∑ t ∈ Finset.range T, es.countP (fun e => e == t) := by
  induction es with
  | nil => simp
  | cons e es ih =>
    have he : e < T := hlt e (List.mem_cons_self e es)
    have ih2 := ih fun x hx => hlt x (List.mem_cons_of_mem e hx)
    simp only [List.countP_cons, List.length_cons]
    rw [Finset.sum_add_distrib, ← ih2]
    congr 1
    have hsum : ∀ t ∈ Finset.range T,
        (if (e == t) = true then 1 else 0) = if e = t then 1 else 0 := by
      intro t _
      simp
    rw [Finset.sum_congr rfl hsum, Finset.sum_ite_eq]
    simp [he]

/-- C9: no increment is ever lost under concurrent updates: over every
interleaving of `T` goroutine-equivalents each performing `N` atomic unit
increments of a single counter (a list of events with exactly `N` events per
thread), the final counter value is exactly `T * N`. -/
theorem counter_no_lost_updates (T N : Nat) (events : List Nat)
    (hlt : ∀ e ∈ events, e < T)
    (hcount : ∀ t < T, events.countP (fun e => e == t) = N) :
    counterRun events = T * N := by
  unfold counterRun
  rw [foldl_inc, Nat.zero_add,
    length_eq_sum_countP T events hlt,
    Finset.sum_congr rfl fun t ht => hcount t (Finset.mem_range.1 ht)]
  simp [Finset.sum_const, Finset.card_range, Nat.mul_comm]

theorem counter_no_lost_updates_witness :
    (∀ e ∈ [0, 1, 1, 0], e < 2) ∧
    (∀ t < 2, List.countP (fun e => e == t) [0, 1, 1, 0] = 2) ∧
    counterRun [0, 1, 1, 0] = 2 * 2 :=
  ⟨by decide, by decide,
    counter_no_lost_updates 2 2 [0, 1, 1, 0] (by decide) (by decide)⟩

/-- The exposition type tags (§6 "Metric serialization contract"). -/
inductive MetricType where
  | counter
  | gauge
  | histogram
  | summary
  | untyped
deriving DecidableEq, Repr

/-- The mutation operations of the Gauge/Untyped scalar interface. -/
inductive GaugeOp where
  | set (x : ℚ)
  | inc
  | dec
  | add (x : ℚ)
  | sub (x : ℚ)
deriving DecidableEq, Repr

/-- Modelled from the spec: Gauge semantics — a scalar current value mutated
by set/inc/dec/add/sub (lock-free atomic numeric operations, §5). -/
def applyGaugeOp (v : ℚ) : GaugeOp → ℚ
  | .set x => x
  | .inc => v + 1
  | .dec => v - 1
  | .add x => v + x
  | .sub x => v - x

/-- Modelled from the source doc comment (doc.go: "The Untyped metric
behaves like a Gauge, but signals the Prometheus server not to assume
anything about its type"): the Untyped metric's own mutation semantics,
stated separately so its equivalence with the Gauge is a theorem rather
than a definition. -/
def applyUntypedOp (v : ℚ) : GaugeOp → ℚ
  | .set x => x
  | .inc => v + 1
  | .dec => v - 1
  | .add x => v + x
  | .sub x => v - x

/-- Gauge serialization: type tag and current value (§6). -/
def gaugeWrite (v : ℚ) : MetricType × ℚ := (.gauge, v)

/-- Untyped serialization: the `untyped` tag that tells the consumer not to
assume anything about the type, and the current value. -/
def untypedWrite (v : ℚ) : MetricType × ℚ := (.untyped, v)

lemma applyUntypedOp_eq_applyGaugeOp :
    ∀ (ops : List GaugeOp) (v : ℚ),
      ops.foldl applyUntypedOp v = ops.foldl applyGaugeOp v := by
  intro ops
  induction ops with
  | nil => intro v; rfl
  | cons o os ih =>
    intro v
    rw [List.foldl_cons, List.foldl_cons, ih]
    have ho : applyUntypedOp v o = applyGaugeOp v o := by
      cases o <;> rfl
    rw [ho]

/-- C10: the Untyped metric's mutation and serialization behaviour is
identical to the Gauge's — any operation sequence yields the same value and
the same serialized value payload — and the only difference is the reported
type tag. -/
theorem untyped_behaves_like_gauge (v : ℚ) (ops : List GaugeOp) :
    ops.foldl applyUntypedOp v = ops.foldl applyGaugeOp v
  ∧ (untypedWrite (ops.foldl applyUntypedOp v)).2
      = (gaugeWrite (ops.foldl applyGaugeOp v)).2
  ∧ (untypedWrite v).1 = .untyped
  ∧ (gaugeWrite v).1 = .gauge
  ∧ (untypedWrite v).1 ≠ (gaugeWrite v).1 := by
  refine ⟨applyUntypedOp_eq_applyGaugeOp ops v, ?_, rfl, rfl, by
    simp [untypedWrite, gaugeWrite]⟩
  show ops.foldl applyUntypedOp v = ops.foldl applyGaugeOp v
  exact applyUntypedOp_eq_applyGaugeOp ops v
